import Mathlib

/-!  A shallow embedding of the chunking and vectorization pipeline of the
RAG_Example_DSNY repository (src/preprocessor.py and src/vectorizer.py),
together with theorems checking the specification's claims against it.

Modelling conventions:
* A Python string is a list of Unicode characters (`Str`).
* Python `None` is `Option.none`; a nullable database column is an `Option`.
* A raised exception is `Except.error`; external collaborators (the NFKC
  normalizer, the character tables behind the regex classes, the embedding
  encoder, the vector index) are parameters of the functions that call them.
* Scores and durations (Python floats) are modelled as rationals.
-/

/-- A Python string: a list of Unicode characters. -/
abbrev Str := List Char

namespace DSNY

/-! ### Decimal rendering of naturals, the model of `f"{i}"`

Implemented with structural fuel so that it evaluates by `rfl`/`decide`;
`natCharsAux_eq_digits` ties it to `Nat.digits` for the injectivity proof. -/

/-- Auxiliary decimal printer.  `natChars` always passes enough fuel for the
recursion to complete. -/
def natCharsAux : Nat → Nat → Str
  | 0, _ => []
  | fuel + 1, n =>
    if n < 10 then [Nat.digitChar n]
    else natCharsAux fuel (n / 10) ++ [Nat.digitChar (n % 10)]

/-- Decimal digit string of a natural number: the model of Python string
interpolation `f"{i}"` for a nonnegative integer `i`. -/
def natChars (n : Nat) : Str := natCharsAux (n + 1) n

theorem natCharsAux_eq_digits (fuel : Nat) :
    ∀ n, 0 < n → n ≤ fuel →
      natCharsAux fuel n = ((Nat.digits 10 n).map Nat.digitChar).reverse := by
  induction fuel with
  | zero => intro n h0 h1; omega
  | succ fuel ih =>
    intro n h0 h1
    rw [natCharsAux]
    by_cases h : n < 10
    · rw [if_pos h, Nat.digits_def' (by norm_num) h0, Nat.div_eq_of_lt h,
        Nat.mod_eq_of_lt h]
      simp
    · rw [if_neg h]
      have hd : 0 < n / 10 := Nat.div_pos (by omega) (by norm_num)
      have hlt := Nat.div_lt_self h0 (by norm_num : 1 < 10)
      rw [ih (n / 10) hd (by omega), Nat.digits_def' (by norm_num) h0]
      simp

theorem natChars_pos {n : Nat} (h : 0 < n) :
    natChars n = ((Nat.digits 10 n).map Nat.digitChar).reverse :=
  natCharsAux_eq_digits (n + 1) n h (by omega)

/-- Inverse of `Nat.digitChar` on decimal digits. -/
def charDigit (c : Char) : Nat := c.toNat - 48

theorem digits_map_digitChar_inj {m n : Nat}
    (h : (Nat.digits 10 m).map Nat.digitChar = (Nat.digits 10 n).map Nat.digitChar) :
    m = n := by
  have key : ∀ l : List Nat, (∀ d ∈ l, d < 10) →
      (l.map Nat.digitChar).map charDigit = l := by
    intro l hl
    rw [List.map_map]
    have hpt : ∀ d ∈ l, (charDigit ∘ Nat.digitChar) d = id d := by
      intro d hd
      have hb : ∀ e < 10, charDigit (Nat.digitChar e) = e := by decide
      simpa using hb d (hl d hd)
    rw [List.map_congr_left hpt, List.map_id]
  have h1 := key (Nat.digits 10 m) (fun d hd => Nat.digits_lt_base (by norm_num) hd)
  have h2 := key (Nat.digits 10 n) (fun d hd => Nat.digits_lt_base (by norm_num) hd)
  have hdig : Nat.digits 10 m = Nat.digits 10 n := by rw [← h1, ← h2, h]
  have := congrArg (Nat.ofDigits 10) hdig
  simpa [Nat.ofDigits_digits] using this

theorem natChars_ne_zero_digits {n : Nat} (h : 0 < n) : natChars n ≠ ['0'] := by
  intro hc
  rw [natChars_pos h] at hc
  have hmap : (Nat.digits 10 n).map Nat.digitChar = ['0'] := by
    have := congrArg List.reverse hc
    simpa using this
  rcases hld : Nat.digits 10 n with _ | ⟨d, t⟩
  · rw [hld] at hmap; simp at hmap
  · rw [hld] at hmap
    simp only [List.map_cons, List.cons.injEq] at hmap
    have ht : t = [] := by
      have := hmap.2
      cases t <;> simp_all
    have hd10 : d < 10 := Nat.digits_lt_base (by norm_num) (by rw [hld]; exact List.mem_cons_self _ _)
    have hd0 : d = 0 := by
      have hb : ∀ e < 10, Nat.digitChar e = '0' → e = 0 := by decide
      exact hb d hd10 hmap.1
    have := Nat.ofDigits_digits 10 n
    rw [hld, ht, hd0] at this
    simp [Nat.ofDigits] at this
    omega

theorem natChars_injective : Function.Injective natChars := by
  intro m n h
  rcases Nat.eq_zero_or_pos m with hm | hm <;> rcases Nat.eq_zero_or_pos n with hn | hn
  · omega
  · subst hm
    exact absurd (show natChars n = ['0'] from h.symm) (natChars_ne_zero_digits hn)
  · subst hn
    exact absurd (show natChars m = ['0'] from h) (natChars_ne_zero_digits hm)
  · rw [natChars_pos hm, natChars_pos hn] at h
    exact digits_map_digitChar_inj (by simpa using congrArg List.reverse h)

/-! ### Data model -/

/-- A row of the `papers` table (src/models.py, class `Paper`): the fields the
preprocessing pipeline reads and writes.  `content`, `chunk_count` and
`total_tokens` are nullable columns; `citations` holds the arxiv ids of the
cited papers (the `paper_references` relationship). -/
structure Paper where
  arxiv_id : Str
  title : Str
  summary : Str
  content : Option Str
  citations : List Str
  chunk_count : Option Nat
  total_tokens : Option Nat
deriving Repr, DecidableEq

/-- A split object of the external `semantic_chunkers` library as consumed by
the wrappers: `splits` is either an already-joined string or a list of
sentence strings; `token_count` and `triggered_score` may be `None` (the
library reports no triggered score for, e.g., the final chunk). -/
structure DocumentSplit where
  splits : Str ⊕ List Str
  token_count : Option Nat
  triggered_score : Option ℚ

/-- The chunk dict `{'text':…, 'token_count':…, 'score':…}` produced by the
chunker wrappers.  Both wrappers always populate all three keys, so a
structure is a faithful model of the dict; an `Option` value of `none` models
the key being present with value `None`. -/
structure PyChunk where
  text : Str
  token_count : Option Nat
  score : Option ℚ
deriving Repr, DecidableEq

/-- Python `' '.join(parts)`. -/
def joinSpace (parts : List Str) : Str := List.intercalate [' '] parts

/-- `StatisticalChunkerWrapper.__call__` (src/preprocessor.py 24-39): joins
list-valued splits with spaces, defaults a `None` token count to `0`, and
copies `triggered_score` into the `score` key unchanged — possibly `None`. -/
def statisticalChunkerWrapper (splits : List DocumentSplit) : List PyChunk :=
  splits.map fun split =>
    { text := match split.splits with
        | .inl s => s
        | .inr l => joinSpace l
      token_count := some (split.token_count.getD 0)
      score := split.triggered_score }

/-- One entry of the metadata list built by `build_chunk_metadata`
(src/preprocessor.py 104-139).  `token_count` comes from
`chunk.get('token_count')` and `semantic_score` from
`chunk.get('score', 0.0)`; both keys are always present in the wrapper
output, so the lookups return the stored value — possibly `None` — and the
`0.0` default of the second lookup never applies. -/
structure ChunkMeta where
  id : Str
  title : Str
  content : Str
  prechunk_id : Str
  postchunk_id : Str
  arxiv_id : Str
  references : List Str
  chunk_index : Nat
  token_count : Option Nat
  semantic_score : Option ℚ
deriving Repr, DecidableEq

/-- The chunk identifier built by the f-string `f"{paper.arxiv_id}#{i}"`. -/
def chunkId (arxiv : Str) (i : Nat) : Str := arxiv ++ '#' :: natChars i

theorem chunkId_inj {arxiv : Str} {i j : Nat} (h : chunkId arxiv i = chunkId arxiv j) :
    i = j := by
  unfold chunkId at h
  have h2 := List.append_cancel_left h
  injection h2 with _ h3
  exact natChars_injective h3

/-- The record built for index `i` of `n` chunks in the loop body of
`build_chunk_metadata`. -/
def buildOne (paper : Paper) (n i : Nat) (chunk : PyChunk) : ChunkMeta where
  id := chunkId paper.arxiv_id i
  title := paper.title
  content := chunk.text
  prechunk_id := if i = 0 then [] else chunkId paper.arxiv_id (i - 1)
  postchunk_id := if i + 1 = n then [] else chunkId paper.arxiv_id (i + 1)
  arxiv_id := paper.arxiv_id
  references := paper.citations
  chunk_index := i
  token_count := chunk.token_count
  semantic_score := chunk.score

/-- `ArXivPreprocessor.build_chunk_metadata` (src/preprocessor.py 104-139):
`for i, chunk in enumerate(chunks)` builds one record per chunk. -/
def build_chunk_metadata (paper : Paper) (chunks : List PyChunk) : List ChunkMeta :=
  chunks.enum.map fun ic => buildOne paper chunks.length ic.1 ic.2

@[simp] theorem length_build_chunk_metadata (paper : Paper) (chunks : List PyChunk) :
    (build_chunk_metadata paper chunks).length = chunks.length := by
  simp [build_chunk_metadata]

theorem get_build_chunk_metadata (paper : Paper) (chunks : List PyChunk) (i : Nat)
    (hm : i < (build_chunk_metadata paper chunks).length) (hc : i < chunks.length) :
    (build_chunk_metadata paper chunks).get ⟨i, hm⟩ =
      buildOne paper chunks.length i (chunks.get ⟨i, hc⟩) := by
  simp [build_chunk_metadata, List.get_eq_getElem, List.getElem_map, List.getElem_enum]

/-! ### `clean_text` (src/preprocessor.py 97-102)

The function calls three external facilities: `unicodedata.normalize('NFKC', ·)`
and the Unicode character tables behind the regex classes for word characters
and whitespace (which also govern `str.split` and `str.strip`).  They are the
parameters `nfkc`, `isWordChar` and `isSpaceChar` of the model. -/

/-- The punctuation the allow-list of the regex keeps besides word characters
and whitespace: period, comma, `!?;:`, round and square brackets, the two
braces (code points 123, 125), the double quote (34), the apostrophe (39),
the backtick (96) and the hyphen. -/
def allowedPunct : List Char :=
  ['.', ',', '!', '?', ';', ':', '(', ')', '[', ']',
   Char.ofNat 123, Char.ofNat 125, Char.ofNat 34, Char.ofNat 39, Char.ofNat 96, '-']

/-- A character the regex substitution does not replace: a word character,
whitespace, or listed punctuation. -/
def isAllowed (isWordChar isSpaceChar : Char → Bool) (c : Char) : Bool :=
  isWordChar c || isSpaceChar c || allowedPunct.contains c

/-- The regex substitution of `clean_text`: every character outside the
allow-list becomes a single space. -/
def substDisallowed (isWordChar isSpaceChar : Char → Bool) (s : Str) : Str :=
  s.map fun c => if isAllowed isWordChar isSpaceChar c then c else ' '

/-- Python `text.split()`: split on whitespace, discarding empty pieces. -/
def splitWs (isSpaceChar : Char → Bool) (s : Str) : List Str :=
  (s.splitOnP isSpaceChar).filter fun w => !w.isEmpty

/-- Python `str.strip()`: remove leading and trailing whitespace. -/
def stripWs (isSpaceChar : Char → Bool) (s : Str) : Str :=
  ((s.dropWhile isSpaceChar).reverse.dropWhile isSpaceChar).reverse

/-- The pure-string part of `clean_text` after NFKC normalization: the regex
substitution, then `' '.join(text.split()).strip()`. -/
def cleanCore (isWordChar isSpaceChar : Char → Bool) (s : Str) : Str :=
  stripWs isSpaceChar
    (joinSpace (splitWs isSpaceChar (substDisallowed isWordChar isSpaceChar s)))

/-- `ArXivPreprocessor.clean_text` (src/preprocessor.py 97-102).  `none`
models Python `None`; Python's `not text` is true for `None` and for the
empty string. -/
def clean_text (isWordChar isSpaceChar : Char → Bool) (nfkc : Str → Str)
    (text : Option Str) : Str :=
  match text with
  | none => []
  | some s => if s = [] then [] else cleanCore isWordChar isSpaceChar (nfkc s)

/-- The shape `text.split()` guarantees for its pieces: nonempty, with no
whitespace inside. -/
def GoodWords (isSpaceChar : Char → Bool) (ws : List Str) : Prop :=
  ∀ w ∈ ws, w ≠ [] ∧ ∀ c ∈ w, isSpaceChar c = false

theorem splitOnP_no_sep {α : Type} (p : α → Bool) :
    ∀ (s : List α), ∀ w ∈ s.splitOnP p, ∀ c ∈ w, p c = false := by
  intro s
  induction s with
  | nil =>
    intro w hw c hc
    rw [List.splitOnP_nil] at hw
    simp only [List.mem_singleton] at hw
    subst hw
    simp at hc
  | cons a t ih =>
    intro w hw c hc
    rw [List.splitOnP_cons] at hw
    by_cases h : p a
    · rw [if_pos h] at hw
      rcases List.mem_cons.mp hw with rfl | hw
      · simp at hc
      · exact ih w hw c hc
    · rw [if_neg h] at hw
      rcases hsep : t.splitOnP p with _ | ⟨hd, tl⟩
      · exact absurd hsep (List.splitOnP_ne_nil p t)
      · rw [hsep, List.modifyHead_cons] at hw
        rcases List.mem_cons.mp hw with rfl | hw
        · rcases List.mem_cons.mp hc with rfl | hc2
          · simpa using h
          · exact ih hd (by rw [hsep]; exact List.mem_cons_self _ _) c hc2
        · exact ih w (by rw [hsep]; exact List.mem_cons_of_mem _ hw) c hc

theorem mem_of_mem_splitOnP {α : Type} (p : α → Bool) :
    ∀ (s : List α), ∀ w ∈ s.splitOnP p, ∀ c ∈ w, c ∈ s := by
  intro s
  induction s with
  | nil =>
    intro w hw c hc
    rw [List.splitOnP_nil] at hw
    simp only [List.mem_singleton] at hw
    subst hw
    simp at hc
  | cons a t ih =>
    intro w hw c hc
    rw [List.splitOnP_cons] at hw
    by_cases h : p a
    · rw [if_pos h] at hw
      rcases List.mem_cons.mp hw with rfl | hw
      · simp at hc
      · exact List.mem_cons_of_mem _ (ih w hw c hc)
    · rw [if_neg h] at hw
      rcases hsep : t.splitOnP p with _ | ⟨hd, tl⟩
      · exact absurd hsep (List.splitOnP_ne_nil p t)
      · rw [hsep, List.modifyHead_cons] at hw
        rcases List.mem_cons.mp hw with rfl | hw
        · rcases List.mem_cons.mp hc with rfl | hc2
          · exact List.mem_cons_self _ _
          · exact List.mem_cons_of_mem _
              (ih hd (by rw [hsep]; exact List.mem_cons_self _ _) c hc2)
        · exact List.mem_cons_of_mem _
            (ih w (by rw [hsep]; exact List.mem_cons_of_mem _ hw) c hc)

theorem goodWords_splitWs (isSpaceChar : Char → Bool) (s : Str) :
    GoodWords isSpaceChar (splitWs isSpaceChar s) := by
  intro w hw
  rw [splitWs, List.mem_filter] at hw
  refine ⟨?_, fun c hc => splitOnP_no_sep isSpaceChar s w hw.1 c hc⟩
  intro hnil
  subst hnil
  simp at hw

theorem mem_splitWs_subset (isSpaceChar : Char → Bool) (s : Str) :
    ∀ w ∈ splitWs isSpaceChar s, ∀ c ∈ w, c ∈ s := by
  intro w hw c hc
  rw [splitWs, List.mem_filter] at hw
  exact mem_of_mem_splitOnP isSpaceChar s w hw.1 c hc

theorem joinSpace_cons_cons (w v : Str) (ws : List Str) :
    joinSpace (w :: v :: ws) = w ++ ' ' :: joinSpace (v :: ws) := by
  simp [joinSpace, List.intercalate, List.intersperse_cons_cons]

theorem joinSpace_singleton (w : Str) : joinSpace [w] = w := by
  simp [joinSpace, List.intercalate]

theorem joinSpace_nil : joinSpace [] = [] := by
  simp [joinSpace, List.intercalate]

/-- Characters of `' '.join(ws)` are characters of the pieces or spaces. -/
theorem mem_joinSpace (ws : List Str) :
    ∀ c ∈ joinSpace ws, (∃ w ∈ ws, c ∈ w) ∨ c = ' ' := by
  induction ws with
  | nil => intro c hc; rw [joinSpace_nil] at hc; simp at hc
  | cons w ws ih =>
    intro c hc
    cases ws with
    | nil =>
      rw [joinSpace_singleton] at hc
      exact Or.inl ⟨w, List.mem_cons_self _ _, hc⟩
    | cons v ws' =>
      rw [joinSpace_cons_cons] at hc
      rcases List.mem_append.mp hc with hcw | hcj
      · exact Or.inl ⟨w, List.mem_cons_self _ _, hcw⟩
      · rcases List.mem_cons.mp hcj with rfl | hcj
        · exact Or.inr rfl
        · rcases ih c hcj with ⟨u, hu, hcu⟩ | rfl
          · exact Or.inl ⟨u, List.mem_cons_of_mem _ hu, hcu⟩
          · exact Or.inr rfl

/-- `text.split()` recovers the pieces of a space-joined list of good words. -/
theorem splitWs_joinSpace (isSpaceChar : Char → Bool)
    (hsp : isSpaceChar ' ' = true) :
    ∀ ws : List Str, GoodWords isSpaceChar ws →
      splitWs isSpaceChar (joinSpace ws) = ws := by
  intro ws
  induction ws with
  | nil => intro _; simp [joinSpace_nil, splitWs, List.splitOnP_nil]
  | cons w ws ih =>
    intro hgood
    have hw := hgood w (List.mem_cons_self _ _)
    have hnosep : ∀ x ∈ w, ¬isSpaceChar x = true := by
      intro x hx
      simp [hw.2 x hx]
    cases ws with
    | nil =>
      rw [joinSpace_singleton, splitWs, List.splitOnP_eq_single _ _ hnosep]
      have : w.isEmpty = false := by
        cases w
        · exact absurd rfl hw.1
        · rfl
      simp [this]
    | cons v ws' =>
      rw [joinSpace_cons_cons, splitWs,
        List.splitOnP_first _ _ hnosep ' ' hsp _]
      have hrest := ih (fun u hu => hgood u (List.mem_cons_of_mem _ hu))
      rw [splitWs] at hrest
      have : w.isEmpty = false := by
        cases w
        · exact absurd rfl hw.1
        · rfl
      simp [this, hrest]

/-- A space-join of good words has a non-space first character, if any. -/
theorem reverse_joinSpace_shape (isSpaceChar : Char → Bool) :
    ∀ ws : List Str, GoodWords isSpaceChar ws → ws ≠ [] →
      ∃ c t, (joinSpace ws).reverse = c :: t ∧ isSpaceChar c = false := by
  intro ws
  induction ws with
  | nil => intro _ h; exact absurd rfl h
  | cons w ws ih =>
    intro hgood _
    have hw := hgood w (List.mem_cons_self _ _)
    cases ws with
    | nil =>
      rw [joinSpace_singleton]
      rcases hrw : w.reverse with _ | ⟨c, t⟩
      · exact absurd (List.reverse_eq_nil_iff.mp hrw) hw.1
      · refine ⟨c, t, rfl, ?_⟩
        have : c ∈ w := List.mem_reverse.mp (by rw [hrw]; exact List.mem_cons_self _ _)
        exact hw.2 c this
    | cons v ws' =>
      rw [joinSpace_cons_cons]
      obtain ⟨c, t, hct, hc⟩ :=
        ih (fun u hu => hgood u (List.mem_cons_of_mem _ hu)) (by simp)
      refine ⟨c, t ++ ' ' :: w.reverse, ?_, hc⟩
      rw [List.reverse_append, List.reverse_cons, hct]
      simp

/-- `str.strip()` leaves a space-join of good words unchanged. -/
theorem stripWs_joinSpace (isSpaceChar : Char → Bool)
    (ws : List Str) (hgood : GoodWords isSpaceChar ws) :
    stripWs isSpaceChar (joinSpace ws) = joinSpace ws := by
  cases ws with
  | nil => rw [joinSpace_nil]; rfl
  | cons w ws =>
    have hw := hgood w (List.mem_cons_self _ _)
    have hfront : (joinSpace (w :: ws)).dropWhile isSpaceChar = joinSpace (w :: ws) := by
      obtain ⟨c, w', rfl⟩ : ∃ c w', w = c :: w' := by
        cases w
        · exact absurd rfl hw.1
        · exact ⟨_, _, rfl⟩
      have hc : isSpaceChar c = false := hw.2 c (List.mem_cons_self _ _)
      cases ws with
      | nil => rw [joinSpace_singleton, List.dropWhile_cons, hc]; simp
      | cons v ws' =>
        rw [joinSpace_cons_cons, List.cons_append, List.dropWhile_cons, hc]
        simp
    obtain ⟨c, t, hct, hc⟩ := reverse_joinSpace_shape isSpaceChar (w :: ws) hgood (by simp)
    rw [stripWs, hfront, hct, List.dropWhile_cons, hc]
    simp only [Bool.false_eq_true, if_false]
    rw [← hct, List.reverse_reverse]

/-- All characters surviving the regex substitution are allowed. -/
theorem allAllowed_substDisallowed (isWordChar isSpaceChar : Char → Bool)
    (hsp : isSpaceChar ' ' = true) (s : Str) :
    ∀ c ∈ substDisallowed isWordChar isSpaceChar s,
      isAllowed isWordChar isSpaceChar c = true := by
  intro c hc
  rw [substDisallowed, List.mem_map] at hc
  obtain ⟨d, _, hd⟩ := hc
  by_cases h : isAllowed isWordChar isSpaceChar d
  · rw [if_pos h] at hd; rw [← hd]; exact h
  · rw [if_neg h] at hd
    rw [← hd, isAllowed, hsp]
    simp

/-- The regex substitution leaves a string of allowed characters unchanged. -/
theorem substDisallowed_fix (isWordChar isSpaceChar : Char → Bool) (s : Str)
    (h : ∀ c ∈ s, isAllowed isWordChar isSpaceChar c = true) :
    substDisallowed isWordChar isSpaceChar s = s := by
  rw [substDisallowed]
  have : ∀ c ∈ s, (fun c => if isAllowed isWordChar isSpaceChar c then c else ' ') c
      = id c := by
    intro c hc
    simp [h c hc]
  rw [List.map_congr_left this, List.map_id]

/-- Every character of `cleanCore s` is allowed. -/
theorem allAllowed_cleanCore (isWordChar isSpaceChar : Char → Bool)
    (hsp : isSpaceChar ' ' = true) (s : Str) :
    ∀ c ∈ cleanCore isWordChar isSpaceChar s,
      isAllowed isWordChar isSpaceChar c = true := by
  intro c hc
  rw [cleanCore, stripWs] at hc
  rw [List.mem_reverse] at hc
  have hc2 := (List.dropWhile_sublist isSpaceChar).mem hc
  rw [List.mem_reverse] at hc2
  have hc3 := (List.dropWhile_sublist isSpaceChar).mem hc2
  rcases mem_joinSpace _ c hc3 with ⟨w, hw, hcw⟩ | rfl
  · exact allAllowed_substDisallowed isWordChar isSpaceChar hsp s c
      (mem_splitWs_subset isSpaceChar _ w hw c hcw)
  · rw [isAllowed, hsp]; simp

/-- The whitespace-collapsing core of `clean_text` is idempotent. -/
theorem cleanCore_idempotent (isWordChar isSpaceChar : Char → Bool)
    (hsp : isSpaceChar ' ' = true) (s : Str) :
    cleanCore isWordChar isSpaceChar (cleanCore isWordChar isSpaceChar s) =
      cleanCore isWordChar isSpaceChar s := by
  have hgood := goodWords_splitWs isSpaceChar (substDisallowed isWordChar isSpaceChar s)
  have hy : cleanCore isWordChar isSpaceChar s =
      joinSpace (splitWs isSpaceChar (substDisallowed isWordChar isSpaceChar s)) := by
    rw [cleanCore, stripWs_joinSpace isSpaceChar _ hgood]
  conv_lhs => rw [cleanCore]
  rw [substDisallowed_fix isWordChar isSpaceChar _
      (allAllowed_cleanCore isWordChar isSpaceChar hsp s)]
  rw [hy, splitWs_joinSpace isSpaceChar hsp _ hgood,
    stripWs_joinSpace isSpaceChar _ hgood, ← hy]

/-! ### `preprocess_paper` (src/preprocessor.py 145-190) -/

/-- Python truthiness of an optional string: `not text` is true for `None`
and for the empty string. -/
def pyFalsy : Option Str → Bool
  | none => true
  | some s => s.isEmpty

/-- Python `sum(…)` over possibly-`None` token counts: `none` models the
`TypeError` raised as soon as a summand is `None`. -/
def sumTokens : List (Option Nat) → Option Nat
  | [] => some 0
  | none :: _ => none
  | some k :: rest => (sumTokens rest).map (k + ·)

/-- `ArXivPreprocessor.build_chunk_content` (src/preprocessor.py 141-143):
the f-string that prefixes the title, `'# ' + title + newline + content`. -/
def build_chunk_content (title content : Str) : Str :=
  '#' :: ' ' :: (title ++ '\n' :: content)

/-- `ArXivPreprocessor.preprocess_paper` (src/preprocessor.py 145-190).
The semantic chunker is the parameter `chunker` (an external call that can
raise); an `Except.error` models the exception that line 190 re-raises.  A
paper with no content is skipped with `return None`, leaving the paper
untouched; on success the function writes `chunk_count` and `total_tokens`
back to the paper and returns the chunk metadata list. -/
def preprocess_paper (isWordChar isSpaceChar : Char → Bool) (nfkc : Str → Str)
    (chunker : List Str → Except Unit (List PyChunk)) (paper : Paper) :
    Except Unit (Paper × Option (List ChunkMeta)) :=
  if pyFalsy paper.content then .ok (paper, none)
  else
    let title := clean_text isWordChar isSpaceChar nfkc (some paper.title)
    let _summary := clean_text isWordChar isSpaceChar nfkc (some paper.summary)
    let content := clean_text isWordChar isSpaceChar nfkc paper.content
    match chunker [content] with
    | .error e => .error e
    | .ok chunks =>
      let chunks_metadata := build_chunk_metadata paper chunks
      -- `processed_content` (lines 172-178) is computed and then discarded by
      -- the source as well.
      let _processed_content :=
        chunks_metadata.map fun m => build_chunk_content title m.content
      match sumTokens (chunks_metadata.map fun m => m.token_count) with
      | none => .error ()   -- the TypeError from summing a None token count
      | some tt =>
        .ok ({ paper with chunk_count := some chunks.length,
                          total_tokens := some tt },
             some chunks_metadata)

/-! ### `Vectorizer` (src/vectorizer.py) -/

/-- An embedding vector from the external encoder. -/
abbrev Embedding := List ℚ

/-- The metadata dict prepared for the vector index (src/vectorizer.py
79-88); also the shape of the stored records that `index.fetch` returns. -/
structure UpsertMeta where
  title : Str
  content : Str
  prechunk_id : Str
  postchunk_id : Str
  arxiv_id : Str
  references : List Str
  chunk_index : Nat
  token_count : Option Nat
deriving Repr, DecidableEq

/-- The dict comprehension of src/vectorizer.py 79-88. -/
def toUpsertMeta (item : ChunkMeta) : UpsertMeta where
  title := item.title
  content := item.content
  prechunk_id := item.prechunk_id
  postchunk_id := item.postchunk_id
  arxiv_id := item.arxiv_id
  references := item.references
  chunk_index := item.chunk_index
  token_count := item.token_count

/-- `Vectorizer.build_chunk` (src/vectorizer.py 34-36): same f-string as
`build_chunk_content`. -/
def build_chunk (title content : Str) : Str :=
  '#' :: ' ' :: (title ++ '\n' :: content)

/-- Auxiliary recursion for `batch_generator`, with structural fuel (the
callers pass the list's length, which always suffices): slices of size
`B + 1`. -/
def batchGoF (B : Nat) : Nat → List α → List (List α)
  | _, [] => []
  | 0, _ :: _ => []
  | fuel + 1, a :: l => (a :: l.take B) :: batchGoF B fuel (l.drop B)

/-- `Vectorizer.batch_generator` (src/vectorizer.py 38-44): the successive
slices `metadata_list[i:i+batch_size]` for `i = 0, B, 2B, …`.  Python's
`range` raises on step 0, so a batch size of 0 is modelled as producing no
batches; every theorem below assumes `1 ≤ batch_size`. -/
def batch_generator (batch_size : Nat) (l : List α) : List (List α) :=
  match batch_size with
  | 0 => []
  | B + 1 => batchGoF B l.length l

@[simp] theorem batchGoF_nil (B fuel : Nat) : batchGoF B fuel ([] : List α) = [] := by
  cases fuel <;> rfl

theorem batchGoF_flatten (B : Nat) :
    ∀ (fuel : Nat) (l : List α), l.length ≤ fuel →
      (batchGoF B fuel l).flatten = l := by
  intro fuel
  induction fuel with
  | zero =>
    intro l h
    cases l
    · rfl
    · simp at h
  | succ fuel ih =>
    intro l h
    cases l with
    | nil => rfl
    | cons a l =>
      rw [batchGoF]
      have hdrop : (l.drop B).length ≤ fuel := by
        rw [List.length_drop]
        simp at h
        omega
      simp only [List.flatten_cons, ih (l.drop B) hdrop]
      rw [List.cons_append, List.take_append_drop]

theorem batchGoF_length (B : Nat) :
    ∀ (fuel : Nat) (l : List α), l.length ≤ fuel →
      (batchGoF B fuel l).length = (l.length + B) / (B + 1) := by
  intro fuel
  induction fuel with
  | zero =>
    intro l h
    cases l
    · simp [Nat.div_eq_of_lt (by omega : B < B + 1)]
    · simp at h
  | succ fuel ih =>
    intro l h
    cases l with
    | nil => simp [Nat.div_eq_of_lt (by omega : B < B + 1)]
    | cons a l =>
      rw [batchGoF]
      have hdrop : (l.drop B).length ≤ fuel := by
        rw [List.length_drop]
        simp at h
        omega
      simp only [List.length_cons, ih (l.drop B) hdrop, List.length_drop]
      have hr : (l.length + 1 + B) / (B + 1) = l.length / (B + 1) + 1 := by
        have : l.length + 1 + B = l.length + (B + 1) := by omega
        rw [this, Nat.add_div_right _ (by omega)]
      rw [hr]
      rcases le_or_lt B l.length with hBl | hBl
      · have : l.length - B + B = l.length := by omega
        rw [this]
      · have h1 : l.length - B = 0 := by omega
        rw [h1, Nat.zero_add, Nat.div_eq_of_lt (by omega),
          Nat.div_eq_of_lt (by omega)]

theorem batchGoF_full (B : Nat) :
    ∀ (fuel : Nat) (l : List α) (i : Nat)
      (hi : i < (batchGoF B fuel l).length),
      i + 1 < (batchGoF B fuel l).length →
      ((batchGoF B fuel l).get ⟨i, hi⟩).length = B + 1 := by
  intro fuel
  induction fuel with
  | zero =>
    intro l i hi hlast
    cases l with
    | nil => simp at hi
    | cons a l =>
      have heq : batchGoF B 0 (a :: l) = [] := rfl
      rw [heq] at hi
      simp at hi
  | succ fuel ih =>
    intro l i hi hlast
    cases l with
    | nil => simp at hi
    | cons a l =>
      replace hlast : i + 1 < ((a :: l.take B) :: batchGoF B fuel (l.drop B)).length :=
        hlast
      show (((a :: l.take B) :: batchGoF B fuel (l.drop B)).get ⟨i, hi⟩).length = B + 1
      cases i with
      | zero =>
        simp only [List.get_eq_getElem, List.getElem_cons_zero, List.length_cons,
          List.length_take]
        have hne : batchGoF B fuel (l.drop B) ≠ [] := by
          intro hnil
          rw [hnil] at hlast
          simp at hlast
        have hdropne : l.drop B ≠ [] := by
          intro hdnil
          rw [hdnil] at hne
          simp at hne
        have : B < l.length := by
          by_contra hcon
          rw [List.drop_eq_nil_iff.mpr (by omega)] at hdropne
          exact hdropne rfl
        omega
      | succ i =>
        simp only [List.length_cons, Nat.add_lt_add_iff_right] at hlast
        simp only [List.get_eq_getElem, List.getElem_cons_succ]
        exact ih (l.drop B) i _ (by simpa using hlast)

/-- The body of one batch iteration of `vectorize_and_store`
(src/vectorizer.py 63-103): build the texts, call the encoder, prepare the
index metadata, zip and upsert.  Returns `true` when the batch succeeded and
`false` when either external call raised (the `except` branch of the loop,
which adds the batch's size to the failed counter). -/
def tryBatch (encoder : List Str → Except Unit (List Embedding))
    (upsert : List (Str × Embedding × UpsertMeta) → Except Unit Unit)
    (batch : List ChunkMeta) : Bool :=
  let ids := batch.map fun item => item.id
  let texts := batch.map fun item => build_chunk item.title item.content
  match encoder texts with
  | .error _ => false
  | .ok embeddings =>
    let metadata_batch := batch.map toUpsertMeta
    let vectors_to_upsert := ids.zip (embeddings.zip metadata_batch)
    match upsert vectors_to_upsert with
    | .error _ => false
    | .ok _ => true

/-- The batch loop of `vectorize_and_store` with its two counters
`(processed_chunks, failed_chunks)`. -/
def runBatches (encoder : List Str → Except Unit (List Embedding))
    (upsert : List (Str × Embedding × UpsertMeta) → Except Unit Unit) :
    Nat × Nat → List (List ChunkMeta) → Nat × Nat
  | acc, [] => acc
  | acc, batch :: rest =>
    if tryBatch encoder upsert batch then
      runBatches encoder upsert (acc.1 + batch.length, acc.2) rest
    else
      runBatches encoder upsert (acc.1, acc.2 + batch.length) rest

/-- The statistics dict returned by `vectorize_and_store`
(src/vectorizer.py 108-114). -/
structure VectorizeStats where
  total_chunks : Nat
  processed_chunks : Nat
  failed_chunks : Nat
  processing_time : ℚ
  chunks_per_second : ℚ
deriving Repr, DecidableEq

/-- `Vectorizer.vectorize_and_store` (src/vectorizer.py 46-124).  The elapsed
wall clock `duration` (the difference of the two `datetime.now()` calls) is
an input of the model. -/
def vectorize_and_store (encoder : List Str → Except Unit (List Embedding))
    (upsert : List (Str × Embedding × UpsertMeta) → Except Unit Unit)
    (batch_size : Nat) (duration : ℚ) (metadata_list : List ChunkMeta) :
    VectorizeStats :=
  let batches := batch_generator batch_size metadata_list
  let pf := runBatches encoder upsert (0, 0) batches
  { total_chunks := metadata_list.length
    processed_chunks := pf.1
    failed_chunks := pf.2
    processing_time := duration
    chunks_per_second := if 0 < duration then (pf.1 : ℚ) / duration else 0 }

theorem runBatches_eq (encoder : List Str → Except Unit (List Embedding))
    (upsert : List (Str × Embedding × UpsertMeta) → Except Unit Unit) :
    ∀ (bs : List (List ChunkMeta)) (p f : Nat),
      runBatches encoder upsert (p, f) bs =
        (p + ((bs.filter (tryBatch encoder upsert)).map List.length).sum,
         f + ((bs.filter fun b => !tryBatch encoder upsert b).map List.length).sum) := by
  intro bs
  induction bs with
  | nil => intro p f; simp [runBatches]
  | cons b rest ih =>
    intro p f
    rw [runBatches]
    by_cases h : tryBatch encoder upsert b
    · rw [if_pos h, ih]
      simp only [List.filter_cons, h, if_pos, Bool.not_true, Bool.false_eq_true,
        if_false, List.map_cons, List.sum_cons]
      refine Prod.ext ?_ rfl
      simp
      omega
    · rw [if_neg h, ih]
      have hb : tryBatch encoder upsert b = false := by
        cases htb : tryBatch encoder upsert b
        · rfl
        · exact absurd htb h
      simp only [List.filter_cons, hb, Bool.false_eq_true, if_false,
        Bool.not_false, if_pos, List.map_cons, List.sum_cons]
      refine Prod.ext rfl ?_
      simp
      omega

theorem filter_length_sum_split {α : Type} (q : List α → Bool)
    (bs : List (List α)) :
    ((bs.filter q).map List.length).sum
      + ((bs.filter fun b => !q b).map List.length).sum
      = (bs.map List.length).sum := by
  induction bs with
  | nil => simp
  | cons b rest ih =>
    by_cases h : q b
    · simp only [List.filter_cons, h, if_pos, Bool.not_true, Bool.false_eq_true,
        if_false, List.map_cons, List.sum_cons]
      omega
    · have hb : q b = false := by
        cases hq : q b
        · rfl
        · exact absurd hq h
      simp only [List.filter_cons, hb, Bool.false_eq_true, if_false,
        Bool.not_false, if_pos, List.map_cons, List.sum_cons]
      omega

/-! ### `Vectorizer.query` (src/vectorizer.py 130-190) -/

/-- One similarity match returned by `index.query`. -/
structure QueryMatch where
  score : ℚ
  metadata : UpsertMeta
deriving Repr, DecidableEq

/-- One element of the list `Vectorizer.query` returns. -/
structure QueryResult where
  title : Str
  content : Str
  score : ℚ
  metadata : UpsertMeta
deriving Repr, DecidableEq

/-- Python slice `s[-n:]` for `n > 0`: the last at-most-`n` characters. -/
def takeLast (n : Nat) (s : Str) : Str := s.drop (s.length - n)

/-- The per-match body of `Vectorizer.query` (src/vectorizer.py 159-184).
`fetch` models `self.index.fetch(ids)["vectors"]` as a partial map from id
to stored record; `id in context_chunks` is `(fetch id).isSome`, and the
code consults it only for ids that are nonempty strings (Python truthiness
of `pre_id`/`post_id`). -/
def processMatch (fetch : Str → Option UpsertMeta) (include_context : Bool)
    (m : QueryMatch) : QueryResult :=
  let content := m.metadata.content
  let content2 :=
    if include_context then
      let pre_id := m.metadata.prechunk_id
      let post_id := m.metadata.postchunk_id
      let content0 :=
        match pre_id, fetch pre_id with
        | _ :: _, some entry => takeLast 400 entry.content ++ ' ' :: content
        | _, _ => content
      match post_id, fetch post_id with
      | _ :: _, some entry => content0 ++ ' ' :: entry.content.take 400
      | _, _ => content0
    else content
  { title := m.metadata.title
    content := content2
    score := m.score
    metadata := m.metadata }

/-- `Vectorizer.query` (src/vectorizer.py 130-190): the loop over the
similarity matches returned by the index. -/
def query (fetch : Str → Option UpsertMeta) (ms : List QueryMatch)
    (include_context : Bool) : List QueryResult :=
  ms.map (processMatch fetch include_context)

/-! ### Concrete sample data, used by the witnesses -/

/-- A concrete paper row. -/
def samplePaper : Paper where
  arxiv_id := ['2', '1', '0', '1', '.', '0', '0', '0', '1']
  title := ['T']
  summary := ['S']
  content := some ['b', 'o', 'd', 'y']
  citations := [['9', '9']]
  chunk_count := none
  total_tokens := none

/-- A concrete three-chunk chunker output. -/
def sampleChunks : List PyChunk :=
  [ { text := ['a'], token_count := some 3, score := some 1 },
    { text := ['b'], token_count := some 4, score := some 2 },
    { text := ['c'], token_count := some 5, score := none } ]

/-- A concrete chunk-metadata record, to exercise the batcher. -/
def sampleMeta (k : Nat) : ChunkMeta where
  id := chunkId ['X'] k
  title := ['T']
  content := natChars k
  prechunk_id := []
  postchunk_id := []
  arxiv_id := ['X']
  references := []
  chunk_index := k
  token_count := some 1
  semantic_score := none

/-- Five metadata records: with `batch_size = 2` they form 3 batches. -/
def sampleList : List ChunkMeta :=
  [sampleMeta 0, sampleMeta 1, sampleMeta 2, sampleMeta 3, sampleMeta 4]

/-- An encoder that raises exactly on the batch containing the text built
from `sampleMeta 2` — with `batch_size = 2` that is batch 2 of 3. -/
def sampleEncoder (texts : List Str) : Except Unit (List Embedding) :=
  if texts.contains (build_chunk ['T'] (natChars 2)) then .error ()
  else .ok (texts.map fun _ => [])

/-- An upsert that always succeeds. -/
def sampleUpsert (_ : List (Str × Embedding × UpsertMeta)) : Except Unit Unit :=
  .ok ()

/-- A whitespace table recognizing only the plain space. -/
def sampleIsSpace (c : Char) : Bool := c == ' '

/-- A chunker that always yields `sampleChunks`. -/
def sampleChunker (_ : List Str) : Except Unit (List PyChunk) := .ok sampleChunks

/-- A stored neighbor record with 1000 characters of content. -/
def sampleStored : UpsertMeta where
  title := []
  content := List.replicate 1000 'q'
  prechunk_id := []
  postchunk_id := []
  arxiv_id := ['X']
  references := []
  chunk_index := 0
  token_count := some 1

/-- A fetch map resolving exactly the id `"p"`. -/
def sampleFetch (s : Str) : Option UpsertMeta :=
  if s = ['p'] then some sampleStored else none

/-- A query match whose successor link is `"p"` and predecessor link empty. -/
def sampleMatch : QueryMatch where
  score := 1
  metadata :=
    { title := ['T']
      content := ['m']
      prechunk_id := []
      postchunk_id := ['p']
      arxiv_id := ['X']
      references := []
      chunk_index := 0
      token_count := some 1 }

/-! ### The claims -/

/-- C1: for every document and every input chunk sequence, the metadata
builder links neighbors consistently: the `prechunk_id` of the chunk at
ordinal `i` equals the `id` of the chunk at ordinal `i-1`, the
`postchunk_id` at `i` equals the `id` at `i+1`, and the first chunk's
`prechunk_id` and the last chunk's `postchunk_id` are the empty string. -/
theorem neighbor_links_consistent (paper : Paper) (chunks : List PyChunk) :
    (∀ i (hm : i < (build_chunk_metadata paper chunks).length)
        (hm' : i - 1 < (build_chunk_metadata paper chunks).length), 0 < i →
        ((build_chunk_metadata paper chunks).get ⟨i, hm⟩).prechunk_id =
          ((build_chunk_metadata paper chunks).get ⟨i - 1, hm'⟩).id)
    ∧ (∀ i (hm : i < (build_chunk_metadata paper chunks).length)
        (hm' : i + 1 < (build_chunk_metadata paper chunks).length),
        ((build_chunk_metadata paper chunks).get ⟨i, hm⟩).postchunk_id =
          ((build_chunk_metadata paper chunks).get ⟨i + 1, hm'⟩).id)
    ∧ (∀ h0 : 0 < (build_chunk_metadata paper chunks).length,
        ((build_chunk_metadata paper chunks).get ⟨0, h0⟩).prechunk_id = []
        ∧ ((build_chunk_metadata paper chunks).get
            ⟨(build_chunk_metadata paper chunks).length - 1, by omega⟩).postchunk_id
          = []) := by
  have hn := length_build_chunk_metadata paper chunks
  refine ⟨?_, ?_, ?_⟩
  · intro i hm hm' h0
    have hc : i < chunks.length := by omega
    have hc' : i - 1 < chunks.length := by omega
    rw [get_build_chunk_metadata paper chunks i hm hc,
      get_build_chunk_metadata paper chunks (i - 1) hm' hc']
    simp only [buildOne]
    rw [if_neg (by omega : ¬i = 0)]
  · intro i hm hm'
    have hc : i < chunks.length := by omega
    have hc' : i + 1 < chunks.length := by omega
    rw [get_build_chunk_metadata paper chunks i hm hc,
      get_build_chunk_metadata paper chunks (i + 1) hm' hc']
    simp only [buildOne]
    rw [if_neg (by omega : ¬i + 1 = chunks.length)]
  · intro h0
    have hc0 : 0 < chunks.length := by omega
    have hcl : (build_chunk_metadata paper chunks).length - 1 < chunks.length := by omega
    constructor
    · rw [get_build_chunk_metadata paper chunks 0 h0 hc0]
      simp [buildOne]
    · rw [get_build_chunk_metadata paper chunks _ _ hcl]
      simp only [buildOne]
      rw [if_pos (by omega : (build_chunk_metadata paper chunks).length - 1 + 1
        = chunks.length)]

/-- Witness for C1 at a concrete paper and three concrete chunks. -/
theorem neighbor_links_consistent_witness :
    (0:Nat) < 1
    ∧ ((build_chunk_metadata samplePaper sampleChunks).get ⟨1, by decide⟩).prechunk_id
        = ((build_chunk_metadata samplePaper sampleChunks).get ⟨0, by decide⟩).id :=
  ⟨by decide,
    (neighbor_links_consistent samplePaper sampleChunks).1 1 (by decide) (by decide)
      (by decide)⟩

/-- C6: for every document and input chunk sequence, the metadata builder
assigns the chunk at position `i` the id `{arxiv_id}#{i}`; ids are pairwise
distinct within the document, ordinals strictly increase with position, and
the `i`-th output record's content equals the `i`-th input chunk's text (no
reordering). -/
theorem chunk_ids_unique_ordered (paper : Paper) (chunks : List PyChunk) :
    (∀ i (hm : i < (build_chunk_metadata paper chunks).length),
        ((build_chunk_metadata paper chunks).get ⟨i, hm⟩).id
          = chunkId paper.arxiv_id i)
    ∧ (∀ i j (hi : i < (build_chunk_metadata paper chunks).length)
          (hj : j < (build_chunk_metadata paper chunks).length), i ≠ j →
        ((build_chunk_metadata paper chunks).get ⟨i, hi⟩).id
          ≠ ((build_chunk_metadata paper chunks).get ⟨j, hj⟩).id)
    ∧ (∀ i j (hi : i < (build_chunk_metadata paper chunks).length)
          (hj : j < (build_chunk_metadata paper chunks).length), i < j →
        ((build_chunk_metadata paper chunks).get ⟨i, hi⟩).chunk_index
          < ((build_chunk_metadata paper chunks).get ⟨j, hj⟩).chunk_index)
    ∧ (∀ i (hm : i < (build_chunk_metadata paper chunks).length)
          (hc : i < chunks.length),
        ((build_chunk_metadata paper chunks).get ⟨i, hm⟩).content
          = (chunks.get ⟨i, hc⟩).text) := by
  have hn := length_build_chunk_metadata paper chunks
  have hid : ∀ i (hm : i < (build_chunk_metadata paper chunks).length),
      ((build_chunk_metadata paper chunks).get ⟨i, hm⟩).id
        = chunkId paper.arxiv_id i := by
    intro i hm
    have hc : i < chunks.length := by omega
    rw [get_build_chunk_metadata paper chunks i hm hc]
    simp [buildOne]
  have hidx : ∀ i (hm : i < (build_chunk_metadata paper chunks).length),
      ((build_chunk_metadata paper chunks).get ⟨i, hm⟩).chunk_index = i := by
    intro i hm
    have hc : i < chunks.length := by omega
    rw [get_build_chunk_metadata paper chunks i hm hc]
    simp [buildOne]
  refine ⟨hid, ?_, ?_, ?_⟩
  · intro i j hi hj hne heq
    rw [hid i hi, hid j hj] at heq
    exact hne (chunkId_inj heq)
  · intro i j hi hj hij
    rw [hidx i hi, hidx j hj]
    exact hij
  · intro i hm hc
    rw [get_build_chunk_metadata paper chunks i hm hc]
    simp [buildOne]

/-- Witness for C6 at a concrete paper and three concrete chunks. -/
theorem chunk_ids_unique_ordered_witness :
    (0:Nat) ≠ 1
    ∧ ((build_chunk_metadata samplePaper sampleChunks).get ⟨0, by decide⟩).id
        ≠ ((build_chunk_metadata samplePaper sampleChunks).get ⟨1, by decide⟩).id :=
  ⟨by decide,
    (chunk_ids_unique_ordered samplePaper sampleChunks).2.1 0 1 (by decide) (by decide)
      (by decide)⟩

/-- C2: for every chunk list and batch size `B ≥ 1`, the batcher produces
exactly `⌈N/B⌉` contiguous batches whose concatenation is the input in
order, every batch except possibly the last has exactly `B` items, and after
`vectorize_and_store` the processed plus failed counters equal `N` no matter
which batches fail. -/
theorem batching_partition (B : Nat) (hB : 1 ≤ B) (l : List ChunkMeta) :
    (batch_generator B l).flatten = l
    ∧ (batch_generator B l).length = (l.length + B - 1) / B
    ∧ (∀ i (hi : i < (batch_generator B l).length),
        i + 1 < (batch_generator B l).length →
        ((batch_generator B l).get ⟨i, hi⟩).length = B)
    ∧ ∀ encoder upsert duration,
        (vectorize_and_store encoder upsert B duration l).processed_chunks
          + (vectorize_and_store encoder upsert B duration l).failed_chunks
          = l.length := by
  obtain ⟨B', rfl⟩ : ∃ k, B = k + 1 := ⟨B - 1, by omega⟩
  have hgen : batch_generator (B' + 1) l = batchGoF B' l.length l := rfl
  refine ⟨?_, ?_, ?_, ?_⟩
  · rw [hgen]
    exact batchGoF_flatten B' l.length l le_rfl
  · rw [hgen, batchGoF_length B' l.length l le_rfl]
    have hnum : l.length + B' = l.length + (B' + 1) - 1 := by omega
    rw [hnum]
  · intro i hi hlast
    exact batchGoF_full B' l.length l i hi hlast
  · intro encoder upsert duration
    have hps : (vectorize_and_store encoder upsert (B' + 1) duration l).processed_chunks
        = (runBatches encoder upsert (0, 0) (batch_generator (B' + 1) l)).1 := rfl
    have hfs : (vectorize_and_store encoder upsert (B' + 1) duration l).failed_chunks
        = (runBatches encoder upsert (0, 0) (batch_generator (B' + 1) l)).2 := rfl
    rw [hps, hfs, runBatches_eq]
    simp only [Nat.zero_add]
    rw [filter_length_sum_split]
    have := congrArg List.length (batchGoF_flatten B' l.length l le_rfl)
    rw [List.length_flatten] at this
    rw [hgen, this]

/-- Witness for C2: batch size 2 over five concrete records, with an encoder
that fails on the middle batch. -/
theorem batching_partition_witness :
    1 ≤ 2
    ∧ (vectorize_and_store sampleEncoder sampleUpsert 2 1 sampleList).processed_chunks
        + (vectorize_and_store sampleEncoder sampleUpsert 2 1 sampleList).failed_chunks
      = sampleList.length :=
  ⟨by decide,
    (batching_partition 2 (by decide) sampleList).2.2.2 sampleEncoder sampleUpsert 1⟩

/-- C3: if the encoder or the upsert raises on some batch, that batch's size
goes to the failed counter, every other batch is still processed, and the
statistics record (total, processed, failed, duration, rate) is returned
even under partial failure: `processed` and `failed` are the summed sizes of
the succeeding and the failing batches.  Concretely, with an encoder failing
exactly on batch 2 of 3, batches 1 and 3 are still counted as processed. -/
theorem batch_failure_isolation :
    (∀ encoder upsert B d (l : List ChunkMeta),
      (vectorize_and_store encoder upsert B d l).processed_chunks
        = (((batch_generator B l).filter (tryBatch encoder upsert)).map List.length).sum
      ∧ (vectorize_and_store encoder upsert B d l).failed_chunks
        = (((batch_generator B l).filter
            fun b => !tryBatch encoder upsert b).map List.length).sum
      ∧ (vectorize_and_store encoder upsert B d l).total_chunks = l.length
      ∧ (vectorize_and_store encoder upsert B d l).processing_time = d)
    ∧ (batch_generator 2 sampleList).length = 3
    ∧ tryBatch sampleEncoder sampleUpsert ((batch_generator 2 sampleList).getD 0 []) = true
    ∧ tryBatch sampleEncoder sampleUpsert ((batch_generator 2 sampleList).getD 1 []) = false
    ∧ tryBatch sampleEncoder sampleUpsert ((batch_generator 2 sampleList).getD 2 []) = true
    ∧ (vectorize_and_store sampleEncoder sampleUpsert 2 1 sampleList).processed_chunks = 3
    ∧ (vectorize_and_store sampleEncoder sampleUpsert 2 1 sampleList).failed_chunks = 2 := by
  refine ⟨?_, by decide, by decide, by decide, by decide, by decide, by decide⟩
  intro encoder upsert B d l
  have hps : (vectorize_and_store encoder upsert B d l).processed_chunks
      = (runBatches encoder upsert (0, 0) (batch_generator B l)).1 := rfl
  have hfs : (vectorize_and_store encoder upsert B d l).failed_chunks
      = (runBatches encoder upsert (0, 0) (batch_generator B l)).2 := rfl
  rw [hps, hfs, runBatches_eq]
  exact ⟨by simp, by simp, rfl, rfl⟩

/-- C10: the statistics computation never divides by zero:
`chunks_per_second` is `processed_chunks / duration` only when the duration
is strictly positive, and it is reported as 0 when the duration is 0. -/
theorem chunks_per_second_guarded (encoder : List Str → Except Unit (List Embedding))
    (upsert : List (Str × Embedding × UpsertMeta) → Except Unit Unit)
    (B : Nat) (d : ℚ) (l : List ChunkMeta) :
    (d = 0 → (vectorize_and_store encoder upsert B d l).chunks_per_second = 0)
    ∧ (0 < d → (vectorize_and_store encoder upsert B d l).chunks_per_second
        = ((vectorize_and_store encoder upsert B d l).processed_chunks : ℚ) / d) := by
  constructor
  · intro h
    subst h
    simp [vectorize_and_store]
  · intro h
    simp [vectorize_and_store, h]

/-- Witness for C10 at duration 0. -/
theorem chunks_per_second_guarded_witness :
    (0:ℚ) = 0
    ∧ (vectorize_and_store sampleEncoder sampleUpsert 2 0 sampleList).chunks_per_second
      = 0 :=
  ⟨rfl, (chunks_per_second_guarded sampleEncoder sampleUpsert 2 0 sampleList).1 rfl⟩

/-- C4: for a match processed with `include_context` true: a resolving
nonempty `prechunk_id` prepends the last at-most-400 characters of the
predecessor's content and a single space; a resolving nonempty
`postchunk_id` appends a single space and the first at-most-400 characters
of the successor's content (exactly 400 when the neighbor has at least 400
characters); neighbors that are empty or do not resolve are skipped without
error. -/
theorem context_expansion (fetch : Str → Option UpsertMeta) (m : QueryMatch) :
    (∀ pe, m.metadata.prechunk_id ≠ [] →
      fetch m.metadata.prechunk_id = some pe →
      (m.metadata.postchunk_id = [] ∨ fetch m.metadata.postchunk_id = none) →
      (processMatch fetch true m).content
          = takeLast 400 pe.content ++ ' ' :: m.metadata.content
        ∧ (takeLast 400 pe.content).length = min 400 pe.content.length)
    ∧ (∀ po, m.metadata.postchunk_id ≠ [] →
      fetch m.metadata.postchunk_id = some po →
      (m.metadata.prechunk_id = [] ∨ fetch m.metadata.prechunk_id = none) →
      (processMatch fetch true m).content
          = m.metadata.content ++ ' ' :: po.content.take 400
        ∧ (po.content.take 400).length = min 400 po.content.length
        ∧ (400 ≤ po.content.length → (po.content.take 400).length = 400))
    ∧ (∀ pe po, m.metadata.prechunk_id ≠ [] →
      fetch m.metadata.prechunk_id = some pe →
      m.metadata.postchunk_id ≠ [] →
      fetch m.metadata.postchunk_id = some po →
      (processMatch fetch true m).content
        = (takeLast 400 pe.content ++ ' ' :: m.metadata.content)
            ++ ' ' :: po.content.take 400)
    ∧ ((m.metadata.prechunk_id = [] ∨ fetch m.metadata.prechunk_id = none) →
      (m.metadata.postchunk_id = [] ∨ fetch m.metadata.postchunk_id = none) →
      (processMatch fetch true m).content = m.metadata.content) := by
  have hlen : ∀ s : Str, (takeLast 400 s).length = min 400 s.length := by
    intro s
    rw [takeLast, List.length_drop]
    omega
  have hlen2 : ∀ s : Str, (s.take 400).length = min 400 s.length := by
    intro s
    rw [List.length_take]
  refine ⟨?_, ?_, ?_, ?_⟩
  · intro pe hpre hfpre hpost
    rcases hpq : m.metadata.prechunk_id with _ | ⟨c, cs⟩
    · exact absurd hpq hpre
    refine ⟨?_, hlen pe.content⟩
    rcases hpost with hpost | hpost
    · rcases hoq : m.metadata.postchunk_id with _ | ⟨d, ds⟩
      · simp only [processMatch, hpq, hoq, hpq ▸ hfpre, if_pos]
      · exact absurd hoq (by rw [hpost]; simp)
    · rcases hoq : m.metadata.postchunk_id with _ | ⟨d, ds⟩
      · simp only [processMatch, hpq, hoq, hpq ▸ hfpre, if_pos]
      · simp only [processMatch, hpq, hoq, hpq ▸ hfpre, hoq ▸ hpost, if_pos]
  · intro po hpost hfpost hpre
    rcases hoq : m.metadata.postchunk_id with _ | ⟨d, ds⟩
    · exact absurd hoq hpost
    refine ⟨?_, hlen2 po.content, fun h400 => by rw [hlen2 po.content]; omega⟩
    rcases hpre with hpre | hpre
    · rcases hpq : m.metadata.prechunk_id with _ | ⟨c, cs⟩
      · simp only [processMatch, hpq, hoq, hoq ▸ hfpost, if_pos]
      · exact absurd hpq (by rw [hpre]; simp)
    · rcases hpq : m.metadata.prechunk_id with _ | ⟨c, cs⟩
      · simp only [processMatch, hpq, hoq, hoq ▸ hfpost, if_pos]
      · simp only [processMatch, hpq, hoq, hoq ▸ hfpost, hpq ▸ hpre, if_pos]
  · intro pe po hpre hfpre hpost hfpost
    rcases hpq : m.metadata.prechunk_id with _ | ⟨c, cs⟩
    · exact absurd hpq hpre
    rcases hoq : m.metadata.postchunk_id with _ | ⟨d, ds⟩
    · exact absurd hoq hpost
    simp only [processMatch, hpq, hoq, hpq ▸ hfpre, hoq ▸ hfpost, if_pos]
  · intro hpre hpost
    rcases hpre with hpre | hpre
    · rcases hpost with hpost | hpost
      · simp only [processMatch, hpre, hpost, if_pos]
      · rcases hoq : m.metadata.postchunk_id with _ | ⟨d, ds⟩
        · simp only [processMatch, hpre, hoq, if_pos]
        · simp only [processMatch, hpre, hoq, hoq ▸ hpost, if_pos]
    · rcases hpq : m.metadata.prechunk_id with _ | ⟨c, cs⟩
      · rcases hpost with hpost | hpost
        · simp only [processMatch, hpq, hpost, if_pos]
        · rcases hoq : m.metadata.postchunk_id with _ | ⟨d, ds⟩
          · simp only [processMatch, hpq, hoq, if_pos]
          · simp only [processMatch, hpq, hoq, hoq ▸ hpost, if_pos]
      · rcases hpost with hpost | hpost
        · simp only [processMatch, hpq, hpq ▸ hpre, hpost, if_pos]
        · rcases hoq : m.metadata.postchunk_id with _ | ⟨d, ds⟩
          · simp only [processMatch, hpq, hpq ▸ hpre, hoq, if_pos]
          · simp only [processMatch, hpq, hpq ▸ hpre, hoq, hoq ▸ hpost, if_pos]

/-- Witness for C4: a match whose successor resolves to a 1000-character
stored chunk gets exactly the first 400 of them appended. -/
theorem context_expansion_witness :
    sampleMatch.metadata.postchunk_id ≠ []
    ∧ sampleFetch sampleMatch.metadata.postchunk_id = some sampleStored
    ∧ ((processMatch sampleFetch true sampleMatch).content
        = sampleMatch.metadata.content ++ ' ' :: sampleStored.content.take 400
      ∧ (sampleStored.content.take 400).length = min 400 sampleStored.content.length
      ∧ (400 ≤ sampleStored.content.length →
          (sampleStored.content.take 400).length = 400)) :=
  ⟨by decide, rfl,
    (context_expansion sampleFetch sampleMatch).2.1 sampleStored (by decide) rfl
      (Or.inl rfl)⟩

/-- C5: a successful preprocessing pass writes back `chunk_count = n`, the
number of chunk records built, and `total_tokens`, the sum of `token_count`
over those records. -/
theorem preprocess_counters (isWordChar isSpaceChar : Char → Bool) (nfkc : Str → Str)
    (chunker : List Str → Except Unit (List PyChunk)) (paper p2 : Paper)
    (md : List ChunkMeta)
    (h : preprocess_paper isWordChar isSpaceChar nfkc chunker paper
        = .ok (p2, some md)) :
    p2.chunk_count = some md.length
    ∧ p2.total_tokens = sumTokens (md.map fun mitem => mitem.token_count) := by
  rw [preprocess_paper] at h
  by_cases hf : pyFalsy paper.content
  · rw [if_pos hf] at h
    simp at h
  · rw [if_neg hf] at h
    simp only at h
    cases hch : chunker [clean_text isWordChar isSpaceChar nfkc paper.content] with
    | error e =>
      rw [hch] at h
      simp at h
    | ok chunks =>
      rw [hch] at h
      simp only at h
      cases hst : sumTokens ((build_chunk_metadata paper chunks).map
          fun mitem => mitem.token_count) with
      | none =>
        rw [hst] at h
        simp at h
      | some tt =>
        rw [hst] at h
        cases h
        refine ⟨?_, ?_⟩
        · simp [length_build_chunk_metadata]
        · exact hst.symm

/-- Witness for C5: a concrete successful pass with three chunks of 3, 4 and
5 tokens writes back `chunk_count = 3` and `total_tokens = 12`. -/
theorem preprocess_counters_witness :
    preprocess_paper Char.isAlphanum sampleIsSpace id sampleChunker samplePaper
      = .ok ({ samplePaper with chunk_count := some 3, total_tokens := some 12 },
             some (build_chunk_metadata samplePaper sampleChunks))
    ∧ ({ samplePaper with chunk_count := some 3, total_tokens := some 12 }
        : Paper).chunk_count
      = some (build_chunk_metadata samplePaper sampleChunks).length :=
  ⟨rfl,
    (preprocess_counters Char.isAlphanum sampleIsSpace id sampleChunker samplePaper
      _ _ rfl).1⟩

/-- C8: a paper whose content is missing or empty is skipped without
raising: the call returns `ok` with no chunk list and the very same paper,
so `chunk_count` and `total_tokens` are left unchanged (they are written
back only after a successful chunking pass). -/
theorem preprocess_skips_empty (isWordChar isSpaceChar : Char → Bool)
    (nfkc : Str → Str) (chunker : List Str → Except Unit (List PyChunk))
    (paper : Paper) (h : paper.content = none ∨ paper.content = some []) :
    preprocess_paper isWordChar isSpaceChar nfkc chunker paper = .ok (paper, none)
    ∧ ∀ p2 omd,
        preprocess_paper isWordChar isSpaceChar nfkc chunker paper = .ok (p2, omd) →
        p2.chunk_count = paper.chunk_count ∧ p2.total_tokens = paper.total_tokens := by
  have hf : pyFalsy paper.content = true := by
    rcases h with h | h <;> rw [h] <;> rfl
  have hmain : preprocess_paper isWordChar isSpaceChar nfkc chunker paper
      = .ok (paper, none) := by
    rw [preprocess_paper, if_pos hf]
  refine ⟨hmain, ?_⟩
  intro p2 omd h2
  rw [hmain] at h2
  cases h2
  exact ⟨rfl, rfl⟩

/-- Witness for C8 at a concrete paper with `content = None`. -/
theorem preprocess_skips_empty_witness :
    (({ samplePaper with content := none } : Paper).content = none
      ∨ ({ samplePaper with content := none } : Paper).content = some [])
    ∧ preprocess_paper Char.isAlphanum sampleIsSpace id sampleChunker
        { samplePaper with content := none }
      = .ok ({ samplePaper with content := none }, none) :=
  ⟨Or.inl rfl,
    (preprocess_skips_empty Char.isAlphanum sampleIsSpace id sampleChunker
      { samplePaper with content := none } (Or.inl rfl)).1⟩

/-- C7: the text normalizer is idempotent — `normalize(normalize(x)) =
normalize(x)` — and returns the empty string on empty or null input without
raising.  The two hypotheses are the external facts the model cannot see:
`hsp` says the space character counts as whitespace in the external
character tables, and `hnfkc` says the external NFKC normalizer fixes any
text obtained by regex-filtering and whitespace-collapsing its own output —
which holds for real NFKC because normalization is idempotent, closed under
taking contiguous substrings, and closed under joining with spaces (the
space composes with nothing). -/
theorem clean_text_idempotent (isWordChar isSpaceChar : Char → Bool)
    (nfkc : Str → Str) (hsp : isSpaceChar ' ' = true)
    (hnfkc : ∀ s, nfkc (cleanCore isWordChar isSpaceChar (nfkc s))
        = cleanCore isWordChar isSpaceChar (nfkc s)) :
    (∀ x : Option Str,
      clean_text isWordChar isSpaceChar nfkc
          (some (clean_text isWordChar isSpaceChar nfkc x))
        = clean_text isWordChar isSpaceChar nfkc x)
    ∧ clean_text isWordChar isSpaceChar nfkc none = []
    ∧ clean_text isWordChar isSpaceChar nfkc (some []) = [] := by
  refine ⟨?_, rfl, rfl⟩
  intro x
  cases x with
  | none => rfl
  | some s =>
    by_cases hs : s = []
    · subst hs; rfl
    · have hy : clean_text isWordChar isSpaceChar nfkc (some s)
          = cleanCore isWordChar isSpaceChar (nfkc s) := by
        simp only [clean_text, if_neg hs]
      rw [hy]
      by_cases hy0 : cleanCore isWordChar isSpaceChar (nfkc s) = []
      · rw [hy0]
        rfl
      · simp only [clean_text, if_neg hy0]
        rw [hnfkc s]
        exact cleanCore_idempotent isWordChar isSpaceChar hsp (nfkc s)

/-- Witness for C7: idempotence at a concrete dirty string, with the ASCII
alphanumeric table, the single-space whitespace table and the identity
normalizer (which satisfies both hypotheses). -/
theorem clean_text_idempotent_witness :
    sampleIsSpace ' ' = true
    ∧ clean_text Char.isAlphanum sampleIsSpace id
        (some (clean_text Char.isAlphanum sampleIsSpace id
          (some [' ', 'a', '$', 'b', ' ', ' ', 'c'])))
      = clean_text Char.isAlphanum sampleIsSpace id
          (some [' ', 'a', '$', 'b', ' ', ' ', 'c']) :=
  ⟨rfl,
    (clean_text_idempotent Char.isAlphanum sampleIsSpace id rfl (fun _ => rfl)).1
      (some [' ', 'a', '$', 'b', ' ', ' ', 'c'])⟩

/-- C9 is refuted by the code as written: on a split whose `triggered_score`
is `None` (as the underlying splitter reports for, e.g., the last chunk) the
wrapper stores `score = None`, and `build_chunk_metadata`'s lookup
`chunk.get('score', 0.0)` returns that stored `None` — the `0.0` default is
dead because the wrappers always populate the key — so the built record's
`semantic_score` is null rather than the float `0.0` the claim (and the
lookup's own default) intends. -/
theorem semantic_score_none_on_untriggered_split :
    (build_chunk_metadata samplePaper
        (statisticalChunkerWrapper
          [{ splits := .inl ['a'], token_count := some 1,
             triggered_score := none }])).map (fun mitem => mitem.semantic_score)
      = [none] := by
  rfl

end DSNY
